import Mathlib

/-!
Verification development for the D.A.M-SYSTEM repository (Distraction
Analysis & Mitigation).  The repository ships a browser extension
(`extension/content.js`, `background.js`, `popup.js`, and a second content
script) together with documentation of a FastAPI backend.  The backend's
Python engine (`backend/main.py` / `brain.py`) is not part of the snapshot,
so the engine (tokenizer, lexical filter, sentiment estimator, divergence
estimator, distraction scorer, de-painter) is modelled from the spec; the
extension-side control flow (length guards, truncation, Sober Mode DOM
round-trip) is embedded from the JavaScript sources.
-/

namespace DamSystem

/-! ## Character-level text utilities

Text is modelled as `List Char` (one entry per UTF-16-ish unit, matching the
JavaScript `length` / `substring` view used by the extension). -/

/-- Splitting accumulator: collects the current in-progress word (reversed)
and emits a word at each space boundary, skipping runs of spaces. -/
def splitWordsAux : List Char → List Char → List (List Char)
  | [], acc => if acc = [] then [] else [acc.reverse]
  | c :: cs, acc =>
    if c = ' ' then
      if acc = [] then splitWordsAux cs []
      else acc.reverse :: splitWordsAux cs []
    else splitWordsAux cs (c :: acc)

/-- Modelled from the spec: the tokenizer's word segmentation (the spaCy
tokenizer of the absent backend), as whitespace-delimited maximal words. -/
def splitWords (s : List Char) : List (List Char) := splitWordsAux s []

/-- Re-join a word sequence with single spaces (the de-painter's surface
reconstruction: no stray double spaces). -/
def joinWords : List (List Char) → List Char
  | [] => []
  | [w] => w
  | w :: ws => w ++ ' ' :: joinWords ws

/-- Splitting accumulator for separator-preserving splitting (used for
sentence boundaries on a period). -/
def splitOnCharAux (sep : Char) : List Char → List Char → List (List Char)
  | [], acc => [acc.reverse]
  | c :: cs, acc =>
    if c = sep then acc.reverse :: splitOnCharAux sep cs []
    else splitOnCharAux sep cs (c :: acc)

/-- Split a character list on every occurrence of `sep`; always yields at
least one (possibly empty) segment. -/
def splitOnChar (sep : Char) (s : List Char) : List (List Char) :=
  splitOnCharAux sep s []

/-- Inverse of `splitOnChar`: interleave the separator between segments. -/
def intercalateChar (sep : Char) : List (List Char) → List Char
  | [] => []
  | [p] => p
  | p :: ps => p ++ sep :: intercalateChar sep ps

/-! ## Lexical model (modelled from the spec)

The backend's POS tagging (spaCy) and sentiment lexicon (TextBlob) are not
in the snapshot; they are modelled as finite lexicon lookups, per the spec's
contract for the Tokenizer/Tagger Adapter and Lexical Filter: unknown words
are tagged `UNKNOWN` and treated as non-removable, non-content. -/

/-- Part-of-speech tags relevant to the lexical filter. -/
inductive POS
  | adjective
  | intensifier
  | noun
  | verb
  | unknown
deriving DecidableEq

/-- Modelled from the spec: lemma extraction, as lower-casing of the surface
form. -/
def lemmaOf (w : List Char) : List Char := w.map Char.toLower

/-- Modelled from the spec: the fixed intensifier / degree-adverb lexicon. -/
def intensifierLexicon : List (List Char) :=
  ["very".toList, "absolutely".toList, "totally".toList, "extremely".toList]

/-- Modelled from the spec: the adjective entries of the tagger's lexicon. -/
def adjectiveLexicon : List (List Char) :=
  ["quick".toList, "brown".toList, "lazy".toList, "beautiful".toList,
   "incredible".toList, "amazing".toList, "revolutionary".toList,
   "happy".toList, "new".toList]

/-- Modelled from the spec: the noun entries of the tagger's lexicon. -/
def nounLexicon : List (List Char) :=
  ["fox".toList, "dog".toList, "cat".toList, "company".toList,
   "product".toList, "breakthrough".toList]

/-- Modelled from the spec: the verb entries of the tagger's lexicon. -/
def verbLexicon : List (List Char) :=
  ["jumps".toList, "is".toList, "announced".toList]

/-- Modelled from the spec: the POS tagger, as a lexicon lookup on the
lemma; anything not in the lexicon is tagged `unknown`. -/
def posOf (w : List Char) : POS :=
  if lemmaOf w ∈ intensifierLexicon then POS.intensifier
  else if lemmaOf w ∈ adjectiveLexicon then POS.adjective
  else if lemmaOf w ∈ nounLexicon then POS.noun
  else if lemmaOf w ∈ verbLexicon then POS.verb
  else POS.unknown

/-- Modelled from the spec: `is_adjective` holds when the POS tag is
adjective. -/
def is_adjective (w : List Char) : Bool :=
  match posOf w with
  | POS.adjective => true
  | _ => false

/-- Modelled from the spec: `is_intensifier` holds when the lemma is in the
fixed intensifier lexicon. -/
def is_intensifier (w : List Char) : Bool :=
  match posOf w with
  | POS.intensifier => true
  | _ => false

/-- A content-bearing word: noun or verb, per the spec's clause-emptiness
rule. -/
def isContentWord (w : List Char) : Bool :=
  match posOf w with
  | POS.noun => true
  | POS.verb => true
  | _ => false

/-- A rhetorical ("paint") word: adjective or intensifier. -/
def isPaintWord (w : List Char) : Bool := is_adjective w || is_intensifier w

/-- Number of content-bearing words in a clause. -/
def contentCount (sent : List (List Char)) : Nat :=
  (sent.filter isContentWord).length

/-- Modelled from the spec: the lexical filter's removability decision — a
word is removable when it is an adjective or intensifier AND removing it
would still leave its governing clause with at least one content token. -/
def removable (sent : List (List Char)) (w : List Char) : Bool :=
  isPaintWord w && decide (0 < contentCount sent)

/-- Modelled from the spec: the de-painter on one clause — keep every word
not marked removable, in original order. -/
def depaintSentence (sent : List (List Char)) : List (List Char) :=
  sent.filter (fun w => ! removable sent w)

/-- Modelled from the spec: the removed surface forms of one clause, in
original order, duplicates preserved. -/
def removedSentence (sent : List (List Char)) : List (List Char) :=
  sent.filter (fun w => removable sent w)

/-- Modelled from the spec: `depaint`'s de-painted text — split into
period-delimited clauses, de-paint each clause's words, re-join with single
spaces and the original period structure. -/
def depaintText (t : List Char) : List Char :=
  intercalateChar '.'
    ((splitOnChar '.' t).map (fun seg => joinWords (depaintSentence (splitWords seg))))

/-- Modelled from the spec: `depaint`'s `removed_terms` — the ordered
concatenation of each clause's removed words. -/
def removedTerms (t : List Char) : List (List Char) :=
  ((splitOnChar '.' t).map (fun seg => removedSentence (splitWords seg))).flatten

/-- Every word of the document, across all period-delimited clauses. -/
def allWords (t : List Char) : List (List Char) :=
  ((splitOnChar '.' t).map splitWords).flatten

/-! ## Sentiment and divergence (modelled from the spec) -/

/-- Modelled from the spec: the TextBlob sentiment lexicon (absent from the
snapshot), as per-lemma polarity values in `[-1,1]`. -/
def sentimentLexicon : List (List Char × ℚ) :=
  [("incredible".toList, 9/10), ("amazing".toList, 3/5),
   ("beautiful".toList, 17/20), ("happy".toList, 4/5),
   ("lazy".toList, -3/10), ("revolutionary".toList, 1/2),
   ("terrible".toList, -1), ("new".toList, 27/200)]

/-- The polarity values of the document's lexicon-matched words. -/
def polarityValues (t : List Char) : List ℚ :=
  (allWords t).filterMap (fun w => List.lookup (lemmaOf w) sentimentLexicon)

/-- Modelled from the spec: the sentiment estimator's polarity in `[-1,1]`,
as the mean of the matched words' lexicon polarities (0 when none match). -/
def polarity (t : List Char) : ℚ :=
  let vs := polarityValues t
  if vs.length = 0 then 0 else vs.sum / (vs.length : ℚ)

/-- Modelled from the spec: subjectivity in `[0,1]`, as the fraction of
words carrying a sentiment-lexicon entry. -/
def subjectivity (t : List Char) : ℚ :=
  let ws := allWords t
  if ws.length = 0 then 0
  else (((ws.filter (fun w => (List.lookup (lemmaOf w) sentimentLexicon).isSome)).length : ℚ)
        / (ws.length : ℚ))

/-- Clamp a rational into `[lo, hi]`. -/
def clamp (lo hi x : ℚ) : ℚ := max lo (min hi x)

/-- Modelled from the spec: the sentiment spike — with a baseline, the
clamped difference of polarity magnitudes; without one, the absolute
polarity of the text itself. -/
def sentiment_spike (t : List Char) (baseline : Option (List Char)) : ℚ :=
  match baseline with
  | some b => clamp 0 1 (|polarity t| - |polarity b|)
  | none => |polarity t|

/-- Content-bearing lemmas of a document (nouns and verbs). -/
def contentLemmas (t : List Char) : List (List Char) :=
  ((allWords t).filter isContentWord).map lemmaOf

/-- Modelled from the spec: the topical divergence estimator — with a
baseline, one minus the content-lemma overlap ratio; without one, the
paint-to-content ratio bounded to `[0,1]`. -/
def topical_divergence (t : List Char) (baseline : Option (List Char)) : ℚ :=
  match baseline with
  | some b =>
    let ct := contentLemmas t
    if ct.length = 0 then 0
    else 1 - (((ct.filter (fun l => decide (l ∈ contentLemmas b))).length : ℚ) / (ct.length : ℚ))
  | none =>
    let ws := allWords t
    let c := (ws.filter isContentWord).length
    let p := (ws.filter isPaintWord).length
    if c = 0 then (if p = 0 then 0 else 1)
    else min 1 ((p : ℚ) / (c : ℚ))

/-! ## Distraction scorer (modelled from the spec) -/

/-- Named weight configuration of the distraction scorer. -/
structure Weights where
  w1 : ℚ
  w2 : ℚ

/-- The default weight configuration: `w1 = 0.4`, `w2 = 0.6`. -/
def defaultWeights : Weights := ⟨2/5, 3/5⟩

/-- Modelled from the spec: the distraction scorer,
`clamp(w1*sentiment_spike + w2*topical_divergence, 0, 1)`. -/
def distraction_score (w : Weights) (ss td : ℚ) : ℚ :=
  clamp 0 1 (w.w1 * ss + w.w2 * td)

/-- Number of adjectives detected, regardless of removability. -/
def adjectiveCount (t : List Char) : Nat :=
  ((allWords t).filter is_adjective).length

/-- The engine's sole externally visible output type. -/
structure AnalysisResult where
  distraction_score : ℚ
  sentiment_polarity : ℚ
  sentiment_subjectivity : ℚ
  adjective_count : Nat
  topical_divergence : ℚ
  original_text : List Char
  de_painted_text : List Char
  removed_terms : List (List Char)
deriving DecidableEq

/-- Modelled from the spec: the full `analyze` pipeline, assembling one
`AnalysisResult` from the component outputs. -/
def analyze (w : Weights) (t : List Char) (baseline : Option (List Char)) :
    AnalysisResult :=
  { distraction_score :=
      distraction_score w (sentiment_spike t baseline) (topical_divergence t baseline)
    sentiment_polarity := polarity t
    sentiment_subjectivity := subjectivity t
    adjective_count := adjectiveCount t
    topical_divergence := topical_divergence t baseline
    original_text := t
    de_painted_text := depaintText t
    removed_terms := removedTerms t }

/-! ## Server request loop (modelled from the spec's statelessness design) -/

/-- One analysis request: a text and an optional baseline. -/
structure Request where
  text : List Char
  baseline : Option (List Char)

/-- The server's per-process state: only the read-only weight
configuration loaded at startup (modelled from the spec: the engine keeps
no mutable state between requests). -/
structure ServerState where
  weights : Weights

/-- Handle one request: produce the result and the (unchanged) state. -/
def handleRequest (s : ServerState) (r : Request) : ServerState × AnalysisResult :=
  (s, analyze s.weights r.text r.baseline)

/-- Run a sequence of requests, threading the server state through. -/
def runRequests (s : ServerState) : List Request → List AnalysisResult
  | [] => []
  | r :: rs =>
    let p := handleRequest s r
    p.2 :: runRequests p.1 rs

/-! ## Extension-side control flow (embedded from the JavaScript sources) -/

/-- JavaScript whitespace test used by `String.prototype.trim`. -/
def jsWhitespace (c : Char) : Bool :=
  c = ' ' || c = '\t' || c = '\n' || c = '\r'

/-- JavaScript `trim`: drop leading and trailing whitespace. -/
def jsTrim (s : List Char) : List Char :=
  ((s.dropWhile jsWhitespace).reverse.dropWhile jsWhitespace).reverse

/-- From `extension/content.js` `extractPageText`: truncate the selected
page text to `MAX_LENGTH = 10000` characters, then trim. -/
def extractPageText (content : List Char) : List Char :=
  jsTrim (if 10000 < content.length then content.take 10000 else content)

/-- From `extension/content.js` `analyzePageContent`: if the extracted text
is empty or shorter than 50 characters, show an error and produce no
result; otherwise call the backend on it. -/
def analyzePageContent (api : List Char → AnalysisResult) (pageText : List Char) :
    Except (List Char) AnalysisResult :=
  if pageText = [] ∨ pageText.length < 50 then
    Except.error ("Insufficient content to analyze".toList)
  else Except.ok (api pageText)

/-- The whole extension analysis pipeline: extract (with truncation), then
guard, then call the backend. -/
def runAnalysis (api : List Char → AnalysisResult) (raw : List Char) :
    Except (List Char) AnalysisResult :=
  analyzePageContent api (extractPageText raw)

/-- From the second content script's `extractArticleText`: limit the
selected element's text to the first 5000 characters (no trim). -/
def extractArticleText (content : List Char) : List Char := content.take 5000

/-- From the second content script's `analyzePage`: extract, and if the
article text is missing or shorter than 50 characters, report "no article
content" and produce no result; otherwise send it for analysis. -/
def analyzePage (api : List Char → AnalysisResult) (content : List Char) :
    Option AnalysisResult :=
  let articleText := extractArticleText content
  if articleText = [] ∨ articleText.length < 50 then none
  else some (api articleText)

/-! ## Sober Mode DOM model (embedded from the second content script) -/

/-- A DOM element as Sober Mode sees it: its text content, the
`data-dam-original` attribute (if present) and whether it carries the
`dam-depainted` class. -/
structure DomElement where
  text : List Char
  original : Option (List Char)
  depainted : Bool
deriving DecidableEq

/-- From `activateSoberMode`: skip whitespace-only or short (< 20 chars)
text; otherwise de-paint it and, when the result differs, store the
original in `data-dam-original` (only if not already present), replace the
text and add the `dam-depainted` class. -/
def activateSoberMode (api : List Char → List Char) (e : DomElement) : DomElement :=
  if jsTrim e.text = [] then e
  else if e.text.length < 20 then e
  else
    let d := api e.text
    if d = e.text then e
    else
      { text := d
        original :=
          match e.original with
          | none => some e.text
          | some o => some o
        depainted := true }

/-- From `deactivateSoberMode`: for an element carrying the `dam-depainted`
class, read `data-dam-original`; when it is present and non-empty (JS
truthiness), restore the text and remove both the attribute and the
class. -/
def deactivateSoberMode (e : DomElement) : DomElement :=
  if e.depainted then
    match e.original with
    | some o => if o = [] then e else { text := o, original := none, depainted := false }
    | none => e
  else e

/-! ## Splitting / joining lemmas -/

theorem splitWordsAux_append (w : List Char) (hw : ∀ c ∈ w, c ≠ ' ') :
    ∀ (rest acc : List Char),
      splitWordsAux (w ++ rest) acc = splitWordsAux rest (w.reverse ++ acc) := by
  induction w with
  | nil => intro rest acc; simp
  | cons c w ih =>
    intro rest acc
    have hc : ¬(c = ' ') := hw c (by simp)
    have hw' : ∀ x ∈ w, x ≠ ' ' := fun x hx => hw x (by simp [hx])
    simp only [List.cons_append, splitWordsAux, if_neg hc, List.append_eq]
    rw [ih hw' rest (c :: acc)]
    simp

theorem splitWords_joinWords :
    ∀ (ws : List (List Char)),
      (∀ w ∈ ws, w ≠ [] ∧ ∀ c ∈ w, c ≠ ' ') →
      splitWords (joinWords ws) = ws := by
  intro ws
  induction ws with
  | nil => intro _; rfl
  | cons w ws ih =>
    intro h
    obtain ⟨hne, hsp⟩ := h w (by simp)
    have hwrev : ¬(w.reverse = []) := by simpa using hne
    have haux : splitWordsAux w [] = [w] := by
      have h1 := splitWordsAux_append w hsp [] []
      rw [List.append_nil, List.append_nil] at h1
      rw [h1]
      simp only [splitWordsAux, if_neg hwrev, List.reverse_reverse]
    cases ws with
    | nil =>
      show splitWordsAux (joinWords [w]) [] = [w]
      simpa [joinWords] using haux
    | cons w2 ws2 =>
      have hrest : ∀ x ∈ w2 :: ws2, x ≠ [] ∧ ∀ c ∈ x, c ≠ ' ' :=
        fun x hx => h x (by simp [hx])
      show splitWordsAux (w ++ ' ' :: joinWords (w2 :: ws2)) [] = w :: w2 :: ws2
      rw [splitWordsAux_append w hsp, List.append_nil]
      simp only [splitWordsAux, if_pos rfl, if_neg hwrev, List.reverse_reverse]
      exact congrArg (w :: ·) (ih hrest)

theorem mem_splitWordsAux :
    ∀ (s acc : List Char), (∀ c ∈ acc, c ≠ ' ') →
      ∀ w ∈ splitWordsAux s acc,
        w ≠ [] ∧ ∀ c ∈ w, (c ∈ s ∨ c ∈ acc) ∧ c ≠ ' ' := by
  intro s
  induction s with
  | nil =>
    intro acc hacc w hw
    by_cases h : acc = []
    · rw [h] at hw; simp [splitWordsAux] at hw
    · simp only [splitWordsAux, if_neg h, List.mem_singleton] at hw
      subst hw
      refine ⟨by simpa using h, fun c hc => ?_⟩
      have hc' : c ∈ acc := by simpa using hc
      exact ⟨Or.inr hc', hacc c hc'⟩
  | cons a s ih =>
    intro acc hacc w hw
    simp only [splitWordsAux] at hw
    by_cases ha : a = ' '
    · rw [if_pos ha] at hw
      by_cases h0 : acc = []
      · rw [if_pos h0] at hw
        obtain ⟨h1, h2⟩ := ih [] (by simp) w hw
        refine ⟨h1, fun c hc => ?_⟩
        obtain ⟨hm, hs⟩ := h2 c hc
        rcases hm with hm | hm
        · exact ⟨Or.inl (by simp [hm]), hs⟩
        · simp at hm
      · rw [if_neg h0] at hw
        rcases List.mem_cons.mp hw with hw | hw
        · subst hw
          refine ⟨by simpa using h0, fun c hc => ?_⟩
          have hc' : c ∈ acc := by simpa using hc
          exact ⟨Or.inr hc', hacc c hc'⟩
        · obtain ⟨h1, h2⟩ := ih [] (by simp) w hw
          refine ⟨h1, fun c hc => ?_⟩
          obtain ⟨hm, hs⟩ := h2 c hc
          rcases hm with hm | hm
          · exact ⟨Or.inl (by simp [hm]), hs⟩
          · simp at hm
    · rw [if_neg ha] at hw
      have hacc' : ∀ c ∈ a :: acc, c ≠ ' ' := by
        intro c hc
        rcases List.mem_cons.mp hc with hc | hc
        · rw [hc]; exact ha
        · exact hacc c hc
      obtain ⟨h1, h2⟩ := ih (a :: acc) hacc' w hw
      refine ⟨h1, fun c hc => ?_⟩
      obtain ⟨hm, hs⟩ := h2 c hc
      rcases hm with hm | hm
      · exact ⟨Or.inl (by simp [hm]), hs⟩
      · rcases List.mem_cons.mp hm with hm | hm
        · exact ⟨Or.inl (by simp [hm]), hs⟩
        · exact ⟨Or.inr hm, hs⟩

theorem mem_joinWords :
    ∀ (ws : List (List Char)) (c : Char), c ∈ joinWords ws →
      c = ' ' ∨ ∃ w ∈ ws, c ∈ w := by
  intro ws
  induction ws with
  | nil => intro c hc; simp [joinWords] at hc
  | cons w ws ih =>
    intro c hc
    cases ws with
    | nil => exact Or.inr ⟨w, by simp, by simpa [joinWords] using hc⟩
    | cons w2 ws2 =>
      have hc' : c ∈ w ++ ' ' :: joinWords (w2 :: ws2) := hc
      rcases List.mem_append.mp hc' with h | h
      · exact Or.inr ⟨w, by simp, h⟩
      · rcases List.mem_cons.mp h with h | h
        · exact Or.inl h
        · rcases ih c h with h | ⟨x, hx, hcx⟩
          · exact Or.inl h
          · exact Or.inr ⟨x, by simp [hx], hcx⟩

theorem splitOnCharAux_append (sep : Char) (p : List Char) (hp : ∀ c ∈ p, c ≠ sep) :
    ∀ (rest acc : List Char),
      splitOnCharAux sep (p ++ rest) acc = splitOnCharAux sep rest (p.reverse ++ acc) := by
  induction p with
  | nil => intro rest acc; simp
  | cons c p ih =>
    intro rest acc
    have hc : ¬(c = sep) := hp c (by simp)
    have hp' : ∀ x ∈ p, x ≠ sep := fun x hx => hp x (by simp [hx])
    simp only [List.cons_append, splitOnCharAux, if_neg hc, List.append_eq]
    rw [ih hp' rest (c :: acc)]
    simp

theorem splitOnChar_intercalate (sep : Char) :
    ∀ (parts : List (List Char)), parts ≠ [] →
      (∀ p ∈ parts, ∀ c ∈ p, c ≠ sep) →
      splitOnChar sep (intercalateChar sep parts) = parts := by
  intro parts
  induction parts with
  | nil => intro h; exact absurd rfl h
  | cons p parts ih =>
    intro _ h
    have hp : ∀ c ∈ p, c ≠ sep := h p (by simp)
    have haux : splitOnCharAux sep p [] = [p] := by
      have h1 := splitOnCharAux_append sep p hp [] []
      rw [List.append_nil, List.append_nil] at h1
      rw [h1]
      simp [splitOnCharAux]
    cases parts with
    | nil =>
      show splitOnCharAux sep (intercalateChar sep [p]) [] = [p]
      simpa [intercalateChar] using haux
    | cons p2 parts2 =>
      have hrest : ∀ x ∈ p2 :: parts2, ∀ c ∈ x, c ≠ sep :=
        fun x hx => h x (by simp [hx])
      show splitOnCharAux sep (p ++ sep :: intercalateChar sep (p2 :: parts2)) [] = _
      rw [splitOnCharAux_append sep p hp, List.append_nil]
      simp only [splitOnCharAux, if_pos rfl, List.reverse_reverse]
      exact congrArg (p :: ·) (ih (by simp) hrest)

theorem mem_splitOnCharAux (sep : Char) :
    ∀ (s acc : List Char), (∀ c ∈ acc, c ≠ sep) →
      ∀ p ∈ splitOnCharAux sep s acc, ∀ c ∈ p, c ≠ sep := by
  intro s
  induction s with
  | nil =>
    intro acc hacc p hp c hc
    simp only [splitOnCharAux, List.mem_singleton] at hp
    subst hp
    exact hacc c (by simpa using hc)
  | cons a s ih =>
    intro acc hacc p hp c hc
    simp only [splitOnCharAux] at hp
    by_cases ha : a = sep
    · rw [if_pos ha] at hp
      rcases List.mem_cons.mp hp with hp | hp
      · subst hp; exact hacc c (by simpa using hc)
      · exact ih [] (by simp) p hp c hc
    · rw [if_neg ha] at hp
      have hacc' : ∀ x ∈ a :: acc, x ≠ sep := by
        intro x hx
        rcases List.mem_cons.mp hx with hx | hx
        · rw [hx]; exact ha
        · exact hacc x hx
      exact ih (a :: acc) hacc' p hp c hc

theorem splitOnCharAux_ne_nil (sep : Char) :
    ∀ (s acc : List Char), splitOnCharAux sep s acc ≠ [] := by
  intro s
  induction s with
  | nil => intro acc; simp [splitOnCharAux]
  | cons a s ih =>
    intro acc
    simp only [splitOnCharAux]
    by_cases ha : a = sep
    · rw [if_pos ha]; simp
    · rw [if_neg ha]; exact ih (a :: acc)

/-! ## De-painter lemmas -/

theorem content_not_paint {w : List Char} (h : isContentWord w = true) :
    isPaintWord w = false := by
  unfold isContentWord at h
  unfold isPaintWord is_adjective is_intensifier
  cases hp : posOf w <;> simp [hp] at h ⊢

theorem contentCount_depaintSentence (sent : List (List Char)) :
    contentCount (depaintSentence sent) = contentCount sent := by
  unfold contentCount depaintSentence
  rw [List.filter_filter]
  refine congrArg List.length (List.filter_congr ?_)
  intro w _
  cases hc : isContentWord w
  · simp
  · simp [removable, content_not_paint hc]

theorem not_removable_depaint (sent : List (List Char)) :
    ∀ w ∈ depaintSentence sent, removable (depaintSentence sent) w = false := by
  intro w hw
  by_cases h : 0 < contentCount sent
  · have hmem := List.mem_filter.mp hw
    have hpf : isPaintWord w = false := by
      have h2 := hmem.2
      simp only [Bool.not_eq_eq_eq_not, Bool.not_true] at h2
      simp [removable, h] at h2
      exact h2
    simp [removable, hpf]
  · have hall : ∀ x ∈ sent, (! removable sent x) = true := by
      intro x _
      simp [removable, h]
    have hfix : depaintSentence sent = sent := List.filter_eq_self.mpr hall
    rw [hfix]
    simp [removable, h]

theorem depaintSentence_idem (sent : List (List Char)) :
    depaintSentence (depaintSentence sent) = depaintSentence sent := by
  refine List.filter_eq_self.mpr ?_
  intro w hw
  rw [not_removable_depaint sent w hw]
  rfl

theorem removedSentence_depaint (sent : List (List Char)) :
    removedSentence (depaintSentence sent) = [] := by
  refine List.filter_eq_nil_iff.mpr ?_
  intro w hw
  simp [not_removable_depaint sent w hw]

/-- Words produced by `splitWords` are nonempty, space-free, and drawn from
the input segment. -/
theorem splitWords_good (seg : List Char) :
    ∀ w ∈ splitWords seg, w ≠ [] ∧ ∀ c ∈ w, c ∈ seg ∧ c ≠ ' ' := by
  intro w hw
  obtain ⟨h1, h2⟩ := mem_splitWordsAux seg [] (by simp) w hw
  refine ⟨h1, fun c hc => ?_⟩
  obtain ⟨hm, hs⟩ := h2 c hc
  rcases hm with hm | hm
  · exact ⟨hm, hs⟩
  · simp at hm

theorem depaintSentence_subset (sent : List (List Char)) :
    ∀ w ∈ depaintSentence sent, w ∈ sent :=
  fun w hw => (List.mem_filter.mp hw).1

/-- Re-tokenizing a de-painted clause's surface text recovers exactly its
word list. -/
theorem splitWords_depainted (seg : List Char) :
    splitWords (joinWords (depaintSentence (splitWords seg)))
      = depaintSentence (splitWords seg) := by
  refine splitWords_joinWords _ ?_
  intro w hw
  obtain ⟨h1, h2⟩ := splitWords_good seg w (depaintSentence_subset _ w hw)
  exact ⟨h1, fun c hc => (h2 c hc).2⟩

/-- A de-painted clause built from a period-free segment is period-free. -/
theorem depainted_seg_no_dot (seg : List Char) (hseg : ∀ c ∈ seg, c ≠ '.') :
    ∀ c ∈ joinWords (depaintSentence (splitWords seg)), c ≠ '.' := by
  intro c hc
  rcases mem_joinWords _ c hc with h | ⟨w, hw, hcw⟩
  · rw [h]; decide
  · exact hseg c ((splitWords_good seg w (depaintSentence_subset _ w hw)).2 c hcw).1

/-- The de-painted text splits back into exactly the de-painted clauses. -/
theorem splitOnChar_depaintText (t : List Char) :
    splitOnChar '.' (depaintText t)
      = (splitOnChar '.' t).map (fun seg => joinWords (depaintSentence (splitWords seg))) := by
  unfold depaintText
  refine splitOnChar_intercalate '.' _ ?_ ?_
  · simp only [ne_eq, List.map_eq_nil_iff]
    exact splitOnCharAux_ne_nil '.' t []
  · intro p hp
    rcases List.mem_map.mp hp with ⟨seg, hseg, rfl⟩
    exact depainted_seg_no_dot seg (mem_splitOnCharAux '.' t [] (by simp) seg hseg)

theorem intercalate_splitOnCharAux (sep : Char) :
    ∀ (s acc : List Char),
      intercalateChar sep (splitOnCharAux sep s acc) = acc.reverse ++ s := by
  intro s
  induction s with
  | nil => intro acc; simp [splitOnCharAux, intercalateChar]
  | cons a s ih =>
    intro acc
    simp only [splitOnCharAux]
    by_cases ha : a = sep
    · rw [if_pos ha]
      rcases hq : splitOnCharAux sep s [] with _ | ⟨q, qs⟩
      · exact absurd hq (splitOnCharAux_ne_nil sep s [])
      · show acc.reverse ++ sep :: intercalateChar sep (q :: qs) = acc.reverse ++ a :: s
        rw [← hq, ih []]
        simp [ha]
    · rw [if_neg ha, ih (a :: acc)]
      simp

/-- Splitting and re-joining on a separator is the identity on text. -/
theorem intercalate_splitOnChar (sep : Char) (s : List Char) :
    intercalateChar sep (splitOnChar sep s) = s := by
  simpa using intercalate_splitOnCharAux sep s []

/-- De-painting a clause is idempotent at the surface-text level. -/
theorem depaint_seg_idem (seg : List Char) :
    joinWords (depaintSentence (splitWords (joinWords (depaintSentence (splitWords seg)))))
      = joinWords (depaintSentence (splitWords seg)) := by
  rw [splitWords_depainted, depaintSentence_idem]

/-! ## Numeric bounds -/

theorem clamp_nonneg (x : ℚ) : 0 ≤ clamp 0 1 x := le_max_left 0 _

theorem clamp_le_one (x : ℚ) : clamp 0 1 x ≤ 1 :=
  max_le zero_le_one (min_le_left 1 x)

theorem clamp_mono {x y : ℚ} (h : x ≤ y) : clamp 0 1 x ≤ clamp 0 1 y :=
  max_le_max le_rfl (min_le_min le_rfl h)

theorem sum_abs_le_length :
    ∀ (l : List ℚ), (∀ v ∈ l, -1 ≤ v ∧ v ≤ 1) →
      -(l.length : ℚ) ≤ l.sum ∧ l.sum ≤ (l.length : ℚ) := by
  intro l
  induction l with
  | nil => intro _; simp
  | cons v l ih =>
    intro h
    obtain ⟨h1, h2⟩ := h v (by simp)
    obtain ⟨ih1, ih2⟩ := ih (fun x hx => h x (by simp [hx]))
    rw [List.sum_cons, List.length_cons]
    push_cast
    constructor <;> linarith

theorem lookup_mem_values {α β : Type} [BEq α] :
    ∀ (l : List (α × β)) (k : α) (b : β),
      List.lookup k l = some b → b ∈ l.map Prod.snd := by
  intro l
  induction l with
  | nil => intro k b h; simp [List.lookup] at h
  | cons p l ih =>
    intro k b h
    obtain ⟨a, v⟩ := p
    rw [List.lookup] at h
    by_cases hk : (k == a) = true
    · rw [hk] at h
      simp only [Option.some.injEq] at h
      simp [← h]
    · rw [Bool.eq_false_iff.mpr hk] at h
      simpa using Or.inr (by simpa using ih k b h)

theorem sentimentLexicon_values :
    ∀ p ∈ sentimentLexicon, -1 ≤ p.2 ∧ p.2 ≤ 1 := by
  intro p hp
  simp only [sentimentLexicon, List.mem_cons, List.not_mem_nil, or_false] at hp
  rcases hp with h | h | h | h | h | h | h | h <;> rw [h] <;> norm_num

theorem polarity_bounds (t : List Char) :
    -1 ≤ polarity t ∧ polarity t ≤ 1 := by
  unfold polarity
  by_cases h : (polarityValues t).length = 0
  · rw [if_pos h]; norm_num
  · rw [if_neg h]
    have hb : ∀ v ∈ polarityValues t, -1 ≤ v ∧ v ≤ 1 := by
      intro v hv
      unfold polarityValues at hv
      rcases List.mem_filterMap.mp hv with ⟨w, _, hlk⟩
      have hmem := lookup_mem_values _ _ _ hlk
      rcases List.mem_map.mp hmem with ⟨p, hp, heq⟩
      rw [← heq]
      exact sentimentLexicon_values p hp
    obtain ⟨h1, h2⟩ := sum_abs_le_length _ hb
    have hl : 0 < ((polarityValues t).length : ℚ) := by
      exact_mod_cast Nat.pos_of_ne_zero h
    constructor
    · rw [le_div_iff₀ hl]; linarith
    · rw [div_le_one hl]; exact h2

theorem subjectivity_bounds (t : List Char) :
    0 ≤ subjectivity t ∧ subjectivity t ≤ 1 := by
  unfold subjectivity
  by_cases h : (allWords t).length = 0
  · rw [if_pos h]; norm_num
  · rw [if_neg h]
    have hl : 0 < ((allWords t).length : ℚ) := by
      exact_mod_cast Nat.pos_of_ne_zero h
    constructor
    · positivity
    · rw [div_le_one hl]
      exact_mod_cast List.length_filter_le _ _

theorem topical_divergence_bounds (t : List Char) (b : Option (List Char)) :
    0 ≤ topical_divergence t b ∧ topical_divergence t b ≤ 1 := by
  cases b with
  | some b =>
    simp only [topical_divergence]
    by_cases h : (contentLemmas t).length = 0
    · rw [if_pos h]; norm_num
    · rw [if_neg h]
      have hl : 0 < ((contentLemmas t).length : ℚ) := by
        exact_mod_cast Nat.pos_of_ne_zero h
      have hle : (((contentLemmas t).filter
          (fun l => decide (l ∈ contentLemmas b))).length : ℚ)
          ≤ ((contentLemmas t).length : ℚ) := by
        exact_mod_cast List.length_filter_le _ _
      have hnn : (0 : ℚ) ≤ (((contentLemmas t).filter
          (fun l => decide (l ∈ contentLemmas b))).length : ℚ) := by positivity
      constructor
      · have : (((contentLemmas t).filter
            (fun l => decide (l ∈ contentLemmas b))).length : ℚ)
            / ((contentLemmas t).length : ℚ) ≤ 1 := by
          rw [div_le_one hl]; exact hle
        linarith
      · have : 0 ≤ (((contentLemmas t).filter
            (fun l => decide (l ∈ contentLemmas b))).length : ℚ)
            / ((contentLemmas t).length : ℚ) := by positivity
        linarith
  | none =>
    simp only [topical_divergence]
    by_cases h : ((allWords t).filter isContentWord).length = 0
    · rw [if_pos h]
      by_cases hp : ((allWords t).filter isPaintWord).length = 0
      · rw [if_pos hp]; norm_num
      · rw [if_neg hp]; norm_num
    · rw [if_neg h]
      constructor
      · refine le_min zero_le_one ?_
        positivity
      · exact min_le_left _ _

/-! ## Request-loop lemma -/

theorem runRequests_map (s : ServerState) :
    ∀ (rs : List Request),
      runRequests s rs = rs.map (fun r => (handleRequest s r).2) := by
  intro rs
  induction rs with
  | nil => rfl
  | cons r rs ih =>
    show (handleRequest s r).2 :: runRequests (handleRequest s r).1 rs = _
    rw [List.map_cons]
    exact congrArg _ ih

/-! ## Extension-side lemmas -/

theorem jsTrim_replicate_space (n : Nat) :
    jsTrim (List.replicate n ' ') = [] := by
  unfold jsTrim
  rw [List.dropWhile_replicate, if_pos (by decide)]
  simp

theorem jsTrim_replicate_a (n : Nat) :
    jsTrim (List.replicate n 'a') = List.replicate n 'a' := by
  unfold jsTrim
  rw [List.dropWhile_replicate, if_neg (by decide), List.reverse_replicate,
    List.dropWhile_replicate, if_neg (by decide), List.reverse_replicate]

theorem extractPageText_replicate_a :
    extractPageText (List.replicate 10001 'a') = List.replicate 10000 'a' := by
  unfold extractPageText
  have h1 : 10000 < (List.replicate 10001 'a').length := by
    rw [List.length_replicate]; omega
  rw [if_pos h1, List.take_replicate]
  have h2 : min 10000 10001 = 10000 := by omega
  rw [h2]
  exact jsTrim_replicate_a 10000

theorem jsTrim_nil_of_eq_nil {s : List Char} (h : s = []) : jsTrim s = [] := by
  rw [h]; rfl

/-- Activation then deactivation restores a fresh element exactly. -/
theorem soberMode_roundtrip (api : List Char → List Char) (e : DomElement)
    (h1 : e.original = none) (h2 : e.depainted = false) :
    deactivateSoberMode (activateSoberMode api e) = e := by
  obtain ⟨tx, orig, dep⟩ := e
  simp only at h1 h2
  subst h1; subst h2
  unfold activateSoberMode
  simp only
  by_cases ht : jsTrim tx = []
  · rw [if_pos ht]; rfl
  · rw [if_neg ht]
    by_cases hl : tx.length < 20
    · rw [if_pos hl]; rfl
    · rw [if_neg hl]
      by_cases hd : api tx = tx
      · rw [if_pos hd]; rfl
      · rw [if_neg hd]
        have hne : ¬(tx = []) := fun h => ht (by rw [h]; rfl)
        simp [deactivateSoberMode, hne]

/-! ## Claims -/

/-- Claim C1: the distraction scorer returns
`clamp(w1*sentiment_spike + w2*topical_divergence, 0, 1)` for every input
and every weight configuration; the weights are a named configuration whose
defaults are `w1 = 0.4` and `w2 = 0.6`, summing to 1. -/
theorem damC1 (w : Weights) (ss td : ℚ) :
    distraction_score w ss td = clamp 0 1 (w.w1 * ss + w.w2 * td) ∧
    defaultWeights.w1 = 2/5 ∧ defaultWeights.w2 = 3/5 ∧
    defaultWeights.w1 + defaultWeights.w2 = 1 ∧
    distraction_score defaultWeights ss td = clamp 0 1 (2/5 * ss + 3/5 * td) := by
  refine ⟨rfl, rfl, rfl, by norm_num [defaultWeights], rfl⟩

/-- Claim C2: de-painting is idempotent — running `depaint` on the
de-painted output returns the same text and an empty `removed_terms`. -/
theorem damC2 (t : List Char) :
    depaintText (depaintText t) = depaintText t ∧
    removedTerms (depaintText t) = [] := by
  constructor
  · show intercalateChar '.' ((splitOnChar '.' (depaintText t)).map
      (fun seg => joinWords (depaintSentence (splitWords seg)))) = depaintText t
    have hfix : (splitOnChar '.' (depaintText t)).map
        (fun seg => joinWords (depaintSentence (splitWords seg)))
        = splitOnChar '.' (depaintText t) := by
      rw [splitOnChar_depaintText t, List.map_map]
      exact List.map_congr_left (fun seg _ => depaint_seg_idem seg)
    rw [hfix]
    exact intercalate_splitOnChar '.' (depaintText t)
  · show ((splitOnChar '.' (depaintText t)).map
      (fun seg => removedSentence (splitWords seg))).flatten = []
    rw [splitOnChar_depaintText t, List.map_map]
    refine List.flatten_eq_nil_iff.mpr ?_
    intro l hl
    rcases List.mem_map.mp hl with ⟨seg, _, rfl⟩
    show removedSentence (splitWords (joinWords (depaintSentence (splitWords seg)))) = []
    rw [splitWords_depainted]
    exact removedSentence_depaint _

/-- Claim C3: removability implies adjective-or-intensifier; a removable
token's clause keeps at least one content token after de-painting; and on
the single-sentence input "Beautiful." (whose only content-candidate word
is an adjective) de-painting removes nothing and the sentence stays
non-empty. -/
theorem damC3 :
    (∀ (sent : List (List Char)) (w : List Char), removable sent w = true →
        is_adjective w = true ∨ is_intensifier w = true) ∧
    (∀ (sent : List (List Char)) (w : List Char), removable sent w = true →
        0 < contentCount (depaintSentence sent)) ∧
    depaintText ("Beautiful.".toList) = "Beautiful.".toList ∧
    removedTerms ("Beautiful.".toList) = [] ∧
    depaintText ("Beautiful.".toList) ≠ [] := by
  refine ⟨?_, ?_, by decide, by decide, by decide⟩
  · intro sent w h
    unfold removable at h
    rw [Bool.and_eq_true] at h
    have hp := h.1
    unfold isPaintWord at hp
    rw [Bool.or_eq_true] at hp
    exact hp
  · intro sent w h
    unfold removable at h
    rw [Bool.and_eq_true] at h
    rw [contentCount_depaintSentence]
    exact of_decide_eq_true h.2

/-- Witness for C3 at a concrete clause: in the clause "quick fox" the word
"quick" is removable, so it is an adjective or intensifier and the
de-painted clause still has a content token. -/
theorem damC3_witness :
    (is_adjective ("quick".toList) = true ∨ is_intensifier ("quick".toList) = true) ∧
    0 < contentCount (depaintSentence ["quick".toList, "fox".toList]) :=
  ⟨damC3.1 ["quick".toList, "fox".toList] ("quick".toList) (by decide),
   damC3.2.1 ["quick".toList, "fox".toList] ("quick".toList) (by decide)⟩

/-- Claim C4: every `AnalysisResult` field is bounded —
`distraction_score ∈ [0,1]`, `topical_divergence ∈ [0,1]`,
`sentiment_polarity ∈ [-1,1]`. -/
theorem damC4 (w : Weights) (t : List Char) (b : Option (List Char)) :
    0 ≤ (analyze w t b).distraction_score ∧ (analyze w t b).distraction_score ≤ 1 ∧
    0 ≤ (analyze w t b).topical_divergence ∧ (analyze w t b).topical_divergence ≤ 1 ∧
    -1 ≤ (analyze w t b).sentiment_polarity ∧ (analyze w t b).sentiment_polarity ≤ 1 :=
  ⟨clamp_nonneg _, clamp_le_one _,
   (topical_divergence_bounds t b).1, (topical_divergence_bounds t b).2,
   (polarity_bounds t).1, (polarity_bounds t).2⟩

/-- Claim C5: the sentiment spike is the clamped difference of polarity
magnitudes when a baseline is supplied and the absolute polarity when not;
no other fallback occurs. -/
theorem damC5 (t b : List Char) :
    sentiment_spike t (some b) = clamp 0 1 (|polarity t| - |polarity b|) ∧
    sentiment_spike t none = |polarity t| :=
  ⟨rfl, rfl⟩

/-- Claim C6: input below 50 characters is rejected — both content scripts
report "not enough content" and produce no `AnalysisResult` at all. -/
theorem damC6 (api : List Char → AnalysisResult) (t : List Char)
    (h : t.length < 50) :
    analyzePageContent api t = Except.error ("Insufficient content to analyze".toList) ∧
    analyzePage api t = none := by
  constructor
  · unfold analyzePageContent
    rw [if_pos (Or.inr h)]
  · show (if t.take 5000 = [] ∨ (t.take 5000).length < 50 then none
      else some (api (t.take 5000))) = none
    rw [List.take_of_length_le (by omega : t.length ≤ 5000)]
    rw [if_pos (Or.inr h)]

/-- Witness for C6 on the concrete 2-character input "hi". -/
theorem damC6_witness :
    ("hi".toList).length < 50 ∧
    analyzePageContent (fun t => analyze defaultWeights t none) ("hi".toList)
      = Except.error ("Insufficient content to analyze".toList) ∧
    analyzePage (fun t => analyze defaultWeights t none) ("hi".toList) = none :=
  ⟨by decide,
   (damC6 (fun t => analyze defaultWeights t none) ("hi".toList) (by decide)).1,
   (damC6 (fun t => analyze defaultWeights t none) ("hi".toList) (by decide)).2⟩

/-- Counterexample to C7 as stated: an input of 10001 spaces is longer than
the 10000-character maximum, yet the pipeline reports an error to the
caller (the truncated text trims to empty and fails the minimum-length
guard) instead of returning a result. -/
theorem damC7_counterexample :
    10000 < (List.replicate 10001 ' ').length ∧
    runAnalysis (fun t => analyze defaultWeights t none) (List.replicate 10001 ' ')
      = Except.error ("Insufficient content to analyze".toList) := by
  constructor
  · rw [List.length_replicate]; omega
  · have he : extractPageText (List.replicate 10001 ' ') = [] := by
      unfold extractPageText
      have h1 : 10000 < (List.replicate 10001 ' ').length := by
        rw [List.length_replicate]; omega
      rw [if_pos h1, List.take_replicate]
      exact jsTrim_replicate_space _
    show analyzePageContent _ (extractPageText (List.replicate 10001 ' ')) = _
    rw [he]
    unfold analyzePageContent
    rw [if_pos (Or.inl rfl)]

/-- Claim C7 (amended): for every input longer than the 10000-character
maximum the pipeline truncates instead of failing — provided the trimmed
truncation still meets the 50-character minimum, no error is reported and
the result is exactly the analysis of the truncated (then trimmed) text. -/
theorem damC7 (api : List Char → AnalysisResult) (raw : List Char)
    (hlong : 10000 < raw.length) (hmin : 50 ≤ (extractPageText raw).length) :
    runAnalysis api raw = Except.ok (api (extractPageText raw)) ∧
    extractPageText raw = jsTrim (raw.take 10000) := by
  have he : extractPageText raw = jsTrim (raw.take 10000) := by
    unfold extractPageText
    rw [if_pos hlong]
  refine ⟨?_, he⟩
  have hguard : ¬(extractPageText raw = [] ∨ (extractPageText raw).length < 50) := by
    rintro (h | h)
    · rw [h] at hmin; simp at hmin
    · omega
  show analyzePageContent api (extractPageText raw) = _
  unfold analyzePageContent
  rw [if_neg hguard]

theorem replicate_a_long : 10000 < (List.replicate 10001 'a').length := by
  rw [List.length_replicate]; omega

theorem replicate_a_min : 50 ≤ (extractPageText (List.replicate 10001 'a')).length := by
  rw [extractPageText_replicate_a, List.length_replicate]; omega

/-- Witness for the amended C7 on 10001 letters: the pipeline succeeds and
analyzes exactly the 10000-character truncation. -/
theorem damC7_witness :
    10000 < (List.replicate 10001 'a').length ∧
    50 ≤ (extractPageText (List.replicate 10001 'a')).length ∧
    runAnalysis (fun t => analyze defaultWeights t none) (List.replicate 10001 'a')
      = Except.ok (analyze defaultWeights (extractPageText (List.replicate 10001 'a')) none) :=
  ⟨replicate_a_long, replicate_a_min,
   (damC7 (fun t => analyze defaultWeights t none) (List.replicate 10001 'a')
     replicate_a_long replicate_a_min).1⟩

/-- Claim C8: the engine is deterministic and stateless — running any
request sequence yields, for each request, exactly the result of analyzing
that request against the startup configuration, independent of all earlier
requests; in particular the last response to `r` is the same whatever
prefix preceded it. -/
theorem damC8 (s : ServerState) (rs : List Request) :
    runRequests s rs = rs.map (fun r => (handleRequest s r).2) ∧
    ∀ (pre : List Request) (r : Request),
      (runRequests s (pre ++ [r])).getLast? = some ((handleRequest s r).2) := by
  refine ⟨runRequests_map s rs, fun pre r => ?_⟩
  rw [runRequests_map, List.map_append, List.map_cons, List.map_nil,
    List.getLast?_concat]

/-- Claim C9: with `w1 = 1 − w2`, the distraction score is monotonically
non-decreasing in `w2` whenever `topical_divergence ≥ sentiment_spike`. -/
theorem damC9 (ss td w2 w2' : ℚ) (h1 : ss ≤ td) (h2 : w2 ≤ w2') :
    distraction_score ⟨1 - w2, w2⟩ ss td ≤ distraction_score ⟨1 - w2', w2'⟩ ss td := by
  apply clamp_mono
  show (1 - w2) * ss + w2 * td ≤ (1 - w2') * ss + w2' * td
  nlinarith [mul_le_mul_of_nonneg_right h2 (sub_nonneg.mpr h1)]

/-- Witness for C9 at `ss = 0`, `td = 1`, `w2 = 0 ≤ w2' = 1`. -/
theorem damC9_witness :
    (0 : ℚ) ≤ 1 ∧
    distraction_score ⟨1 - 0, 0⟩ 0 1 ≤ distraction_score ⟨1 - 1, 1⟩ 0 1 :=
  ⟨zero_le_one, damC9 0 1 0 1 zero_le_one zero_le_one⟩

/-- Claim C10: Sober Mode restoration round-trips — for every fresh element
that `activateSoberMode` marked (class plus stored original), a subsequent
`deactivateSoberMode` restores the stored text and removes both the
attribute and the class; after deactivation no element of a fresh DOM
retains the `dam-depainted` marker. -/
theorem damC10 :
    (∀ (api : List Char → List Char) (e : DomElement),
      e.original = none → e.depainted = false →
      (activateSoberMode api e).depainted = true →
      deactivateSoberMode (activateSoberMode api e) = e ∧
      (deactivateSoberMode (activateSoberMode api e)).depainted = false) ∧
    (∀ (api : List Char → List Char) (dom : List DomElement),
      (∀ e ∈ dom, e.original = none ∧ e.depainted = false) →
      ∀ e' ∈ (dom.map (activateSoberMode api)).map deactivateSoberMode,
        e'.depainted = false) := by
  constructor
  · intro api e h1 h2 _hm
    have h := soberMode_roundtrip api e h1 h2
    exact ⟨h, by rw [h]; exact h2⟩
  · intro api dom hdom e' he'
    rcases List.mem_map.mp he' with ⟨e1, he1, rfl⟩
    rcases List.mem_map.mp he1 with ⟨e0, he0, rfl⟩
    rw [soberMode_roundtrip api e0 (hdom e0 he0).1 (hdom e0 he0).2]
    exact (hdom e0 he0).2

/-- Witness for C10 on a concrete marked element: activation marks it and
deactivation restores it exactly. -/
theorem damC10_witness :
    (activateSoberMode (fun _ => "x".toList)
      ⟨"The quick brown fox jumps".toList, none, false⟩).depainted = true ∧
    deactivateSoberMode (activateSoberMode (fun _ => "x".toList)
      ⟨"The quick brown fox jumps".toList, none, false⟩)
      = ⟨"The quick brown fox jumps".toList, none, false⟩ ∧
    (deactivateSoberMode (activateSoberMode (fun _ => "x".toList)
      ⟨"The quick brown fox jumps".toList, none, false⟩)).depainted = false :=
  ⟨by decide,
   (damC10.1 (fun _ => "x".toList)
     ⟨"The quick brown fox jumps".toList, none, false⟩ rfl rfl (by decide)).1,
   (damC10.1 (fun _ => "x".toList)
     ⟨"The quick brown fox jumps".toList, none, false⟩ rfl rfl (by decide)).2⟩

end DamSystem
